import Mathlib

/-
Verification of the vw-offline-manual-creator script.

The script is a single Python file that mirrors an online vehicle manual
into a static offline document.  This file gives a shallow embedding of
the parts of that script that the verified properties are about:

* `replace_in_template`  - the mustache-style template substitution
  (Python `str.replace` over a dict of placeholders);
* `build_dom` / `build_children` - the recursive tree assembly
  (body html, toc html, href map) including the fetch-failure policy and
  the `<html>...</html>` unwrap step;
* `fragRewrite` / `dynRewrite` / `rewriteLink` - the two link-rewrite
  loops that adapt `href`, `data-goto`, `checked-link` and `data-facets`
  attributes to the chosen extend mode;
* `processCssRef` - the `url(...)` scan over downloaded stylesheets;
* `downloadManifest` - the skip-if-present download scheduling used for
  images and CSS resources.

Python strings are modelled as `List Char`; Python dicts (attribute
dicts, the href map, the replacement dict) as association lists;
`requests` fetches as an oracle function returning `Except`; `sys.exit`
and uncaught exceptions as `Except.error` outcomes.
-/

set_option maxHeartbeats 1000000

/-- Shorthand turning a Lean string literal into the `List Char` model of
Python strings used throughout. -/
def s2l (s : String) : List Char := s.toList

/-- Substring test, Python `pat in s` for strings: true iff `pat` occurs
contiguously inside `s`. -/
def containsSub (pat : List Char) : List Char → Bool
  | [] => pat.isEmpty
  | c :: rest => pat.isPrefixOf (c :: rest) || containsSub pat rest

/-- Association-list lookup, the model of Python `d[k]` / `k in d`
(returns `none` when the key is absent, i.e. a `KeyError` on read). -/
def getA {α : Type} : List (List Char × α) → List Char → Option α
  | [], _ => none
  | (k', v) :: rest, k => if k' = k then some v else getA rest k

/-- Association-list store, the model of Python `d[k] = v`: replaces the
value of an existing key in place, otherwise appends the new binding. -/
def setA {α : Type} : List (List Char × α) → List Char → α → List (List Char × α)
  | [], k, v => [(k, v)]
  | (k', v') :: rest, k, v =>
    if k' = k then (k, v) :: rest else (k', v') :: setA rest k v

/-- Association-list delete, the model of Python `del d[k]`: fails
(`none`, a `KeyError`) when the key is absent. -/
def delA {α : Type} (l : List (List Char × α)) (k : List Char) :
    Option (List (List Char × α)) :=
  if (getA l k).isSome then some (l.filter (fun p => !(p.1 == k))) else none

/-- Model of Python `a.update(b)` on dicts: values of keys of `a` that
also occur in `b` are overwritten in place, fresh keys of `b` are
appended in order. -/
def dictUpdate {α : Type} (a b : List (List Char × α)) : List (List Char × α) :=
  a.map (fun p => match getA b p.1 with | some v => (p.1, v) | none => p)
    ++ b.filter (fun q => (getA a q.1).isNone)

/-- Python `s.rsplit(c, maxsplit=1)[0]` guarded by `c in s`: everything
before the last occurrence of `c`, or `s` unchanged when `c` is absent.
This is the normalisation applied to `url(...)` references. -/
def stripLastFrom (c : Char) (s : List Char) : List Char :=
  if s.contains c then ((s.reverse.dropWhile (fun x => x != c)).tail).reverse
  else s

/-- Body of the CSS `url(...)` scan loop: a reference starting with
`data:` yields no manifest entry; otherwise the reference is stripped of
its trailing `#...` part and then of its trailing `?...` part, and the
entry maps that local relative path to the stylesheet directory joined
with it. -/
def processCssRef (cssDir rel : List Char) : Option (List Char × List Char) :=
  if (s2l "data:").isPrefixOf rel then none
  else
    let r1 := stripLastFrom '#' rel
    let r2 := stripLastFrom '?' r1
    some (r2, cssDir ++ '/' :: r2)

/-- The download loops over discovered assets `(localPath, url)`: an
asset is scheduled for retrieval only when no file already exists at its
local destination path (`if not local_path.is_file()`). -/
def downloadManifest (existsFile : List Char → Bool)
    (assets : List (List Char × List Char)) : List (List Char × List Char) :=
  assets.filter (fun a => !(existsFile a.1))

-- Concrete inputs used by witnesses and counterexamples.

/-- Stylesheet directory of the worked CSS example. -/
def cssDirEx : List Char := s2l "https://userguide.volkswagen.de/css"

/-- Relative reference of the worked CSS example. -/
def cssRelEx : List Char := s2l "icons/x.png?v=2"

/-- File-existence oracle of the manifest example: exactly
`img/a.png` is already materialised. -/
def existsEx : List Char → Bool := fun p => p == s2l "img/a.png"

/-- Discovered assets of the manifest example. -/
def assetsEx : List (List Char × List Char) :=
  [(s2l "img/a.png", s2l "https://h/a.png"), (s2l "img/b.png", s2l "https://h/b.png")]

-- ===================================================================
-- Link rewrite pass (extend-mode dependent adaptation of anchors)
-- ===================================================================

/-- Attribute dictionaries and the href map: keys are attribute names or
anchor ids, values are either a string or Python `None`. -/
abbrev AttrMap := List (List Char × Option (List Char))

/-- The merged reference map (`href_content` in the script): maps an
anchor id to the `target` field of its `linkState` record, which may be
null. -/
abbrev RefMap := AttrMap

/-- Attribute name `href`. -/
def hrefA : List Char := s2l "href"

/-- Attribute name `id`. -/
def idA : List Char := s2l "id"

/-- Attribute name `data-goto`. -/
def gotoA : List Char := s2l "data-goto"

/-- Attribute name `checked-link`. -/
def checkedA : List Char := s2l "checked-link"

/-- Attribute name `data-facets`. -/
def facetsA : List Char := s2l "data-facets"

/-- The `all` extend mode. -/
def allMode : List Char := s2l "all"

/-- The `single` extend mode. -/
def singleMode : List Char := s2l "single"

/-- The `toggle` extend mode. -/
def toggleMode : List Char := s2l "toggle"

/-- An anchor element of the final document: whether it carries the
`dynamic-link` class, and its attribute dict. -/
structure Anchor where
  dynLink : Bool
  attrs : AttrMap
deriving DecidableEq

/-- CSS selector `a[href^="#"]`: the anchor has an `href` attribute
whose string value starts with `#`. -/
def isFragSel (a : Anchor) : Bool :=
  match getA a.attrs hrefA with
  | some (some ('#' :: _)) => true
  | _ => false

/-- Body of the fragment-link loop (`extend_mode != 'all'` only):
`a['data-goto'] = a['href'][1:]` then `a['href'] = '#'`. -/
def fragRewrite (a : Anchor) : Anchor :=
  match getA a.attrs hrefA with
  | some (some ('#' :: frag)) =>
    { a with attrs := setA (setA a.attrs gotoA (some frag)) hrefA (some ['#']) }
  | _ => a

/-- Mode-dependent part of the dynamic-link loop body, acting on the
attribute dict after `a['href'] = '#'` has run.  In `all` mode the
target is looked up only when `a['id'] in href_content`; otherwise
`href_content[a['id']]` is read unguarded, so a missing entry is a
`KeyError` (`none`). -/
def dynStep2 (refMap : RefMap) (mode : List Char) (base : AttrMap) : Option AttrMap :=
  if mode = allMode then
    match getA base idA with
    | none => none
    | some none => some base
    | some (some sid) =>
      match getA refMap sid with
      | some (some t) => some (setA base hrefA (some ('#' :: t)))
      | some none => some base
      | none => some base
  else
    match getA base idA with
    | none => none
    | some none => none
    | some (some sid) =>
      match getA refMap sid with
      | none => none
      | some tgt => some (setA base gotoA tgt)

/-- Body of the dynamic-link loop (`a.dynamic-link` anchors): set
`href`, resolve the target per mode, then delete the `checked-link` and
`data-facets` attributes unconditionally.  `none` models an uncaught
`KeyError`. -/
def dynRewrite (refMap : RefMap) (mode : List Char) (a : Anchor) : Option Anchor :=
  match dynStep2 refMap mode (setA a.attrs hrefA (some ['#'])) with
  | none => none
  | some at2 =>
    match delA at2 checkedA with
    | none => none
    | some at3 =>
      match delA at3 facetsA with
      | none => none
      | some at4 => some { dynLink := a.dynLink, attrs := at4 }

/-- Second stage of the per-anchor rewrite: the dynamic loop applies
only to anchors carrying the `dynamic-link` class. -/
def rewriteDynStage (refMap : RefMap) (mode : List Char) (a1 : Anchor) : Option Anchor :=
  if a1.dynLink then dynRewrite refMap mode a1 else some a1

/-- Combined effect of both link loops on one anchor: the fragment loop
first (only when the mode is not `all` and the anchor matches
`a[href^="#"]`), then the dynamic loop when the anchor has the
`dynamic-link` class. -/
def rewriteLink (refMap : RefMap) (mode : List Char) (a : Anchor) : Option Anchor :=
  rewriteDynStage refMap mode
    (if mode ≠ allMode ∧ isFragSel a = true then fragRewrite a else a)

/-- The two link loops over the whole document, modelled as the list of
its anchors; a `KeyError` on any anchor aborts the run. -/
def rewriteDoc (refMap : RefMap) (mode : List Char) (doc : List Anchor) :
    Option (List Anchor) :=
  doc.mapM (rewriteLink refMap mode)

/-- Dynamic link whose `anchorId` (`a1`) is used by the link-rewrite
witnesses and the missing-entry counterexample. -/
def aDyn : Anchor :=
  ⟨true, [(idA, some (s2l "a1")), (hrefA, some (s2l "#x")),
          (checkedA, some (s2l "true")), (facetsA, some (s2l "f"))]⟩

/-- Reference map holding a non-null target for anchor id `a1`. -/
def rmEx : RefMap := [(s2l "a1", some (s2l "topicX"))]

/-- Plain fragment link (no `dynamic-link` class) used by the
fragment-rewrite witness. -/
def aFrag : Anchor := ⟨false, [(hrefA, some (s2l "#fig1"))]⟩

/-- Dynamic link lacking the `checked-link` attribute, used by the
attribute-requirement witness. -/
def aNoChecked : Anchor :=
  ⟨true, [(idA, some (s2l "a1")), (hrefA, some (s2l "#x")),
          (facetsA, some (s2l "f"))]⟩

-- ===================================================================
-- Template substitution (replace_in_template)
-- ===================================================================

/-- Python `s.replace(pat, rep)` (all non-overlapping occurrences, left
to right), with an explicit fuel argument so that the definition is
structurally recursive; `replaceAll` below instantiates the fuel with
the length of the string, which always suffices because every step
consumes at least one character. -/
def replaceF (pat rep : List Char) : Nat → List Char → List Char
  | _, [] => []
  | 0, s => s
  | fuel + 1, c :: rest =>
    if pat ≠ [] ∧ pat.isPrefixOf (c :: rest) then
      rep ++ replaceF pat rep fuel (rest.drop (pat.length - 1))
    else c :: replaceF pat rep fuel rest

/-- Python `s.replace(pat, rep)`: replace every non-overlapping
occurrence of `pat` in `s` by `rep`, scanning left to right. -/
def replaceAll (pat rep s : List Char) : List Char :=
  replaceF pat rep s.length s

/-- The literal placeholder token `\x7b\x7bKEY\x7d\x7d` built from a
placeholder name, as in `'{{'+k+'}}'`. -/
def tok (k : List Char) : List Char := '\x7b' :: '\x7b' :: (k ++ ['\x7d', '\x7d'])

/-- The script's `replace_in_template`: fold `str.replace` over the
replacement dict in insertion order. -/
def replace_in_template (template_str : List Char)
    (dict_replace : List (List Char × List Char)) : List Char :=
  dict_replace.foldl (fun s kv => replaceAll (tok kv.1) kv.2 s) template_str

-- ===================================================================
-- Tree assembly (build_dom)
-- ===================================================================

/-- Everything before the last position of `s` at which `pat` matches
(reading greedily, as `(.*)` does before a literal in a Python regex);
`none` when `pat` matches nowhere. -/
def beforeLastOcc (pat : List Char) : List Char → Option (List Char)
  | [] => if pat.isEmpty then some [] else none
  | c :: rest =>
    match beforeLastOcc pat rest with
    | some g => some (c :: g)
    | none => if pat.isPrefixOf (c :: rest) then some [] else none

/-- The unwrap regex applied to a fetched body:
`re.match('<html[^>]*>(.*)</html>', content, re.DOTALL)` and its
`group(1)`.  The string must start with `<html`, then `[^>]*>` consumes
through the first `>`, and the greedy `(.*)` reaches the last
`</html>`; `none` models a failed match (whose `.group(1)` raises). -/
def htmlUnwrapMatch (content : List Char) : Option (List Char) :=
  if (s2l "<html").isPrefixOf content then
    match (content.drop 5).dropWhile (fun c => c != '>') with
    | [] => none
    | _ :: body => beforeLastOcc (s2l "</html>") body
  else none

/-- The four HTML templates used by `build_dom` (the `index` template is
used only at top level, outside the recursion). -/
structure Templates where
  topic_w_children : List Char
  topic_wo_children : List Char
  toc_w_children : List Char
  toc_wo_children : List Char
deriving DecidableEq

/-- Result of one successful topic fetch: the `bodyHtml` field and the
`linkState` reference map of the JSON response. -/
structure Fragment where
  bodyHtml : List Char
  linkState : RefMap
deriving DecidableEq

/-- How a `build_dom` run can abort: `fatalExit` models
`sys.exit(1)` under `crash_on_error`, `uncaughtExc` models an uncaught
exception (the `.group(1)` on a failed regex match). -/
inductive BErr where
  | fatalExit
  | uncaughtExc
deriving DecidableEq

/-- A node of the topic tree returned by the API: `nodeId`, `label`,
`linkTarget` (empty when there is nothing to fetch) and the ordered
children. -/
inductive Topic where
  | node : List Char → List Char → List Char → List Topic → Topic

instance {e a : Type} [DecidableEq e] [DecidableEq a] : DecidableEq (Except e a) :=
  fun x y =>
  match x, y with
  | Except.error e1, Except.error e2 =>
    if h : e1 = e2 then Decidable.isTrue (by rw [h])
    else Decidable.isFalse (fun hc => h (by injection hc))
  | Except.error _, Except.ok _ => Decidable.isFalse (fun hc => Except.noConfusion hc)
  | Except.ok _, Except.error _ => Decidable.isFalse (fun hc => Except.noConfusion hc)
  | Except.ok a1, Except.ok a2 =>
    if h : a1 = a2 then Decidable.isTrue (by rw [h])
    else Decidable.isFalse (fun hc => h (by injection hc))

/-- The leaf part of `build_dom`: obtain `content` and `html_href` for a
leaf topic.  No fetch when `linkTarget` is empty; on an HTTP error
either exit fatally (`crash_on_error`) or substitute the placeholder
`<div></div>`; on success unwrap an `<html>` document shell when the
body contains `</html>`, an unmatchable body raising an uncaught
exception. -/
def fetchLeafContent (fetch : List Char → Except Unit Fragment) (crash : Bool)
    (linkTarget : List Char) : Except BErr (List Char × RefMap) :=
  if linkTarget = [] then Except.ok ([], [])
  else
    match fetch linkTarget with
    | Except.error _ =>
      if crash then Except.error BErr.fatalExit
      else Except.ok (s2l "<div></div>", [])
    | Except.ok frag =>
      if containsSub (s2l "</html>") frag.bodyHtml then
        match htmlUnwrapMatch frag.bodyHtml with
        | none => Except.error BErr.uncaughtExc
        | some inner => Except.ok (inner, frag.linkState)
      else Except.ok (frag.bodyHtml, frag.linkState)

mutual

/-- The script's recursive `build_dom`: returns
`(html_body, html_toc, html_href)` for one topic, or the abort
outcome. -/
def build_dom (fetch : List Char → Except Unit Fragment) (tmpl : Templates)
    (tocPos : List Char) (crash : Bool) :
    Topic → Nat → Except BErr (List Char × List Char × RefMap)
  | Topic.node nodeId label linkTarget children, level =>
    if children.isEmpty then
      match fetchLeafContent fetch crash linkTarget with
      | Except.error e => Except.error e
      | Except.ok res =>
        Except.ok
          (replace_in_template tmpl.topic_wo_children
            [(s2l "TOPIC_ID", nodeId), (s2l "TOPIC_LINK", linkTarget),
             (s2l "TOPIC_TITLE", label), (s2l "TOPIC_CONTENT", res.1)],
           replace_in_template tmpl.toc_wo_children
            [(s2l "TOPIC_ID", nodeId), (s2l "TOPIC_LINK", linkTarget),
             (s2l "TOPIC_TITLE", label), (s2l "TOPIC_CONTENT", res.1)],
           res.2)
    else
      match build_children fetch tmpl tocPos crash children (level + 1) [] [] [] with
      | Except.error e => Except.error e
      | Except.ok res =>
        Except.ok
          (replace_in_template tmpl.topic_w_children
            [(s2l "TOPIC_ID", nodeId), (s2l "TOPIC_TITLE", label),
             (s2l "TOPIC_CHILDREN", res.1), (s2l "TOC_CHILDREN", res.2.1)],
           (if tocPos = s2l "header" ∧ 0 < level then
             replace_in_template tmpl.toc_wo_children
              [(s2l "TOPIC_ID", nodeId), (s2l "TOPIC_TITLE", label),
               (s2l "TOPIC_CHILDREN", res.1), (s2l "TOC_CHILDREN", res.2.1),
               (s2l "TOPIC_LINK", s2l "title" ++ nodeId)]
            else
             replace_in_template tmpl.toc_w_children
              [(s2l "TOPIC_ID", nodeId), (s2l "TOPIC_TITLE", label),
               (s2l "TOPIC_CHILDREN", res.1), (s2l "TOC_CHILDREN", res.2.1)]),
           res.2.2)

/-- The loop over `topic['children']` (also the top-level loop over the
trees of the manual): sequentially build each child, concatenating the
body and toc strings and `updating` the href dict. -/
def build_children (fetch : List Char → Except Unit Fragment) (tmpl : Templates)
    (tocPos : List Char) (crash : Bool) :
    List Topic → Nat → List Char → List Char → RefMap →
      Except BErr (List Char × List Char × RefMap)
  | [], _, accB, accT, accH => Except.ok (accB, accT, accH)
  | t :: ts, level, accB, accT, accH =>
    match build_dom fetch tmpl tocPos crash t level with
    | Except.error e => Except.error e
    | Except.ok res =>
      build_children fetch tmpl tocPos crash ts level
        (accB ++ res.1) (accT ++ res.2.1) (dictUpdate accH res.2.2)

end

mutual

/-- Specification-side collection of the reference maps fetched at the
leaves of a tree, in document order: a leaf with an empty `linkTarget`
or a failing fetch contributes nothing, a successfully fetched leaf
contributes its `linkState`. -/
def leafMaps (fetch : List Char → Except Unit Fragment) : Topic → List RefMap
  | Topic.node _ _ linkTarget children =>
    if children.isEmpty then
      if linkTarget = [] then []
      else
        match fetch linkTarget with
        | Except.error _ => []
        | Except.ok frag => [frag.linkState]
    else leafMapsList fetch children

/-- `leafMaps` over a forest. -/
def leafMapsList (fetch : List Char → Except Unit Fragment) : List Topic → List RefMap
  | [] => []
  | t :: ts => leafMaps fetch t ++ leafMapsList fetch ts

end

mutual

/-- A topic is `good` when none of its leaves hits the unwrap
exception: every successful fetch either contains no `</html>` or is
matched by the unwrap regex.  Failing fetches are allowed. -/
def goodTopic (fetch : List Char → Except Unit Fragment) : Topic → Bool
  | Topic.node _ _ linkTarget children =>
    if children.isEmpty then
      if linkTarget = [] then true
      else
        match fetch linkTarget with
        | Except.error _ => true
        | Except.ok frag =>
          !(containsSub (s2l "</html>") frag.bodyHtml) ||
            (htmlUnwrapMatch frag.bodyHtml).isSome
    else goodTopics fetch children

/-- `goodTopic` over a forest. -/
def goodTopics (fetch : List Char → Except Unit Fragment) : List Topic → Bool
  | [] => true
  | t :: ts => goodTopic fetch t && goodTopics fetch ts

end

mutual

/-- Whether some leaf of the tree has a non-empty `linkTarget` whose
fetch fails. -/
def hasFailLeaf (fetch : List Char → Except Unit Fragment) : Topic → Bool
  | Topic.node _ _ linkTarget children =>
    if children.isEmpty then
      !linkTarget.isEmpty &&
        (match fetch linkTarget with
         | Except.error _ => true
         | Except.ok _ => false)
    else hasFailLeafList fetch children

/-- `hasFailLeaf` over a forest. -/
def hasFailLeafList (fetch : List Char → Except Unit Fragment) : List Topic → Bool
  | [] => false
  | t :: ts => hasFailLeaf fetch t || hasFailLeafList fetch ts

end

/-- Two reference maps have disjoint anchor-id key sets. -/
def keysDisjoint (m1 m2 : RefMap) : Prop :=
  ∀ k ∈ m1.map Prod.fst, k ∉ m2.map Prod.fst

instance (m1 m2 : RefMap) : Decidable (keysDisjoint m1 m2) := by
  unfold keysDisjoint
  infer_instance

-- Concrete assembly inputs used by witnesses and counterexamples.

/-- Default toc position. -/
def tocSidebar : List Char := s2l "sidebar"

/-- Minimal concrete template set: each template is exactly the
placeholder that carries the aggregated content. -/
def tmplEx : Templates :=
  ⟨tok (s2l "TOPIC_CHILDREN"), tok (s2l "TOPIC_CONTENT"),
   tok (s2l "TOC_CHILDREN"), tok (s2l "TOPIC_ID")⟩

/-- Fetch oracle with two keyed fragments carrying disjoint reference
maps. -/
def fetchC4 : List Char → Except Unit Fragment := fun k =>
  if k = s2l "k1" then Except.ok ⟨s2l "b1", [(s2l "a1", some (s2l "t1"))]⟩
  else Except.ok ⟨s2l "b2", [(s2l "a2", none)]⟩

/-- Tree with one interior node and two fetchable leaves. -/
def treeC4 : Topic :=
  Topic.node (s2l "r") (s2l "R") []
    [Topic.node (s2l "n1") (s2l "L1") (s2l "k1") [],
     Topic.node (s2l "n2") (s2l "L2") (s2l "k2") []]

/-- The rendered unit produced for `treeC4`. -/
def resC4 : List Char × List Char × RefMap :=
  (s2l "b1b2", s2l "n1n2", [(s2l "a1", some (s2l "t1")), (s2l "a2", none)])

/-- Fetch oracle that always reports a not-found error. -/
def fetchFailEx : List Char → Except Unit Fragment := fun _ => Except.error ()

/-- A sibling leaf with no fetchable content. -/
def goodLeafEx : Topic := Topic.node (s2l "n2") (s2l "L2") [] []

/-- Fetch oracle returning a body that contains `</html>` but does not
start with an `<html...>` tag. -/
def fetchC9 : List Char → Except Unit Fragment :=
  fun _ => Except.ok ⟨s2l "x</html>", []⟩

/-- Leaf topic used by the unwrap-partiality claim. -/
def leafC9 : Topic := Topic.node (s2l "n9") (s2l "L9") (s2l "k9") []

-- ===================================================================
-- Abstract templates for the substitution round-trip property
-- ===================================================================

/-- A template described as a sequence of pieces: literal text and
placeholder holes.  `renderT` turns it into the concrete template
string handed to `replace_in_template`. -/
inductive TPiece where
  | lit : List Char → TPiece
  | hole : List Char → TPiece
deriving DecidableEq

/-- Render a piece list to the template text: a hole for key `k` renders
as the literal token `\x7b\x7bk\x7d\x7d`. -/
def renderT : List TPiece → List Char
  | [] => []
  | TPiece.lit s :: T => s ++ renderT T
  | TPiece.hole k :: T => tok k ++ renderT T

/-- The hole keys of a piece list, in template order. -/
def holesOf : List TPiece → List (List Char)
  | [] => []
  | TPiece.lit _ :: T => holesOf T
  | TPiece.hole k :: T => k :: holesOf T

/-- Simultaneous literal substitution: each hole is replaced by its
value from the replacement dict (or kept as its token when absent),
with the literal segments untouched.  This is the specification-side
reading of template substitution: the substituted positions hold
exactly the replacement values. -/
def substT (repl : List (List Char × List Char)) : List TPiece → List Char
  | [] => []
  | TPiece.lit s :: T => s ++ substT repl T
  | TPiece.hole k :: T =>
    (match getA repl k with | some v => v | none => tok k) ++ substT repl T

/-- Brace discipline for a template piece: literal text is free of the
opening-brace character, hole keys are free of both braces (placeholder
names are plain identifiers). -/
def pieceOk : TPiece → Bool
  | TPiece.lit s => !(s.contains '\x7b')
  | TPiece.hole k => !(k.contains '\x7b') && !(k.contains '\x7d')

/-- Brace discipline for a replacement entry: the key is free of braces
and the substituted value is free of the opening brace. -/
def kvOk (kv : List Char × List Char) : Bool :=
  !(kv.1.contains '\x7b') && !(kv.1.contains '\x7d') && !(kv.2.contains '\x7b')

/-- Template of the nested-expansion counterexample: the two tokens
`\x7b\x7bA\x7d\x7d\x7b\x7bB\x7d\x7d`, each key occurring exactly once. -/
def tmplC6 : List TPiece := [TPiece.hole (s2l "A"), TPiece.hole (s2l "B")]

/-- Replacement dict of the counterexample: the value substituted for
`A` is itself the literal token of `B`. -/
def replC6 : List (List Char × List Char) :=
  [(s2l "A", tok (s2l "B")), (s2l "B", s2l "z")]

/-- Template used by the round-trip witness. -/
def tmplC6w : List TPiece :=
  [TPiece.lit (s2l "<a id="), TPiece.hole (s2l "TOPIC_ID"),
   TPiece.lit (s2l ">"), TPiece.hole (s2l "TOPIC_TITLE"),
   TPiece.lit (s2l "</a>")]

/-- Replacement dict used by the round-trip witness. -/
def replC6w : List (List Char × List Char) :=
  [(s2l "TOPIC_ID", s2l "n1"), (s2l "TOPIC_TITLE", s2l "Brakes")]

-- ===================================================================
-- Theorems
-- ===================================================================

theorem contains_true_iff_mem (l : List Char) (c : Char) :
    l.contains c = true ↔ c ∈ l := by
  simp

theorem dropWhile_ne_of_mem (c : Char) :
    ∀ (l : List Char), c ∈ l → ∃ t, l.dropWhile (fun x => x != c) = c :: t := by
  intro l
  induction l with
  | nil => intro h; cases h
  | cons x xs ih =>
    intro h
    by_cases hx : x = c
    · subst hx
      refine ⟨xs, ?_⟩
      simp [List.dropWhile_cons]
    · have hc : c ∈ xs := by
        rcases List.mem_cons.mp h with h1 | h1
        · exact absurd h1.symm hx
        · exact h1
      rcases ih hc with ⟨t, ht⟩
      refine ⟨t, ?_⟩
      simp [List.dropWhile_cons, hx, ht]

theorem strip_decomp (c : Char) (s : List Char) :
    ∃ suf, s = stripLastFrom c s ++ suf ∧ (suf = [] ∨ ∃ t, suf = c :: t) := by
  by_cases h : c ∈ s
  · have hmem : c ∈ s.reverse := by
      rw [List.mem_reverse]
      exact h
    rcases dropWhile_ne_of_mem c s.reverse hmem with ⟨t, ht⟩
    have hsplit : s.reverse = s.reverse.takeWhile (fun x => x != c) ++ (c :: t) := by
      conv_lhs => rw [← List.takeWhile_append_dropWhile (p := fun x => x != c) (l := s.reverse)]
      rw [ht]
    have hs : s = t.reverse ++ [c] ++ (s.reverse.takeWhile (fun x => x != c)).reverse := by
      have := congrArg List.reverse hsplit
      simpa [List.reverse_append] using this
    refine ⟨c :: (s.reverse.takeWhile (fun x => x != c)).reverse, ?_, Or.inr ⟨_, rfl⟩⟩
    have hstrip : stripLastFrom c s = t.reverse := by
      simp [stripLastFrom, h, ht]
    rw [hstrip]
    simpa [List.append_assoc] using hs
  · refine ⟨[], ?_, Or.inl rfl⟩
    simp [stripLastFrom, h]

/-- Claim C7: a `url(...)` reference that does not use the `data:`
inline encoding is normalised by stripping a trailing `#...` suffix and
a trailing `?...` suffix; the local destination path is that normalised
relative path and the remote URL is the stylesheet directory joined with
it; `data:` references produce no manifest entry. -/
theorem css_ref_resolution (cssDir rel : List Char) :
    ((s2l "data:").isPrefixOf rel = true → processCssRef cssDir rel = none) ∧
    (¬ (s2l "data:").isPrefixOf rel = true →
      ∃ res q f, processCssRef cssDir rel = some (res, cssDir ++ '/' :: res) ∧
        rel = res ++ q ++ f ∧
        (q = [] ∨ ∃ t, q = '?' :: t) ∧
        (f = [] ∨ ∃ t, f = '#' :: t)) := by
  constructor
  · intro h
    simp [processCssRef, h]
  · intro h
    rcases strip_decomp '#' rel with ⟨f, hf, hfcase⟩
    rcases strip_decomp '?' (stripLastFrom '#' rel) with ⟨q, hq, hqcase⟩
    refine ⟨stripLastFrom '?' (stripLastFrom '#' rel), q, f, ?_, ?_, hqcase, hfcase⟩
    · simp [processCssRef, h]
    · rw [← hq, ← hf]

/-- Witness for claim C7: the stylesheet reference `icons/x.png?v=2`
found in directory `.../css` yields local path `icons/x.png` and remote
URL `.../css/icons/x.png`, and a `data:` reference yields no entry. -/
theorem css_ref_resolution_witness :
    processCssRef cssDirEx cssRelEx =
      some (s2l "icons/x.png", s2l "https://userguide.volkswagen.de/css/icons/x.png") ∧
    processCssRef cssDirEx (s2l "data:image/png;base64,AA") = none ∧
    (¬ (s2l "data:").isPrefixOf cssRelEx = true) ∧
    (∃ res q f, processCssRef cssDirEx cssRelEx = some (res, cssDirEx ++ '/' :: res) ∧
        cssRelEx = res ++ q ++ f ∧
        (q = [] ∨ ∃ t, q = '?' :: t) ∧
        (f = [] ∨ ∃ t, f = '#' :: t)) := by
  refine ⟨by decide, by decide, by decide, (css_ref_resolution cssDirEx cssRelEx).2 (by decide)⟩

/-- Claim C8: an asset whose local destination path already exists is
never scheduled for retrieval, so re-running the builder against a
partially populated directory yields a manifest excluding it. -/
theorem manifest_dedup (existsFile : List Char → Bool)
    (assets : List (List Char × List Char)) (a : List Char × List Char)
    (_hmem : a ∈ assets) (hex : existsFile a.1 = true) :
    a ∉ downloadManifest existsFile assets := by
  intro hcontra
  have := List.mem_filter.mp hcontra
  rw [hex] at this
  simp at this

/-- Witness for claim C8: with `img/a.png` already on disk, the
discovered asset list containing it yields a manifest without it. -/
theorem manifest_dedup_witness :
    (s2l "img/a.png", s2l "https://h/a.png") ∈ assetsEx ∧
    existsEx (s2l "img/a.png") = true ∧
    (s2l "img/a.png", s2l "https://h/a.png") ∉ downloadManifest existsEx assetsEx := by
  refine ⟨by decide, by decide, manifest_dedup existsEx assetsEx _ (by decide) (by decide)⟩


theorem getA_setA_self {α : Type} (l : List (List Char × α)) (k : List Char) (v : α) :
    getA (setA l k v) k = some v := by
  induction l with
  | nil => simp [setA, getA]
  | cons p rest ih =>
    obtain ⟨pk, pv⟩ := p
    by_cases hp : pk = k
    · subst hp
      simp [setA, getA]
    · simp [setA, getA, hp, ih]

theorem getA_setA_ne {α : Type} (l : List (List Char × α)) (k k' : List Char) (v : α)
    (h : k' ≠ k) : getA (setA l k v) k' = getA l k' := by
  induction l with
  | nil => simp [setA, getA, Ne.symm h]
  | cons p rest ih =>
    obtain ⟨pk, pv⟩ := p
    by_cases hp : pk = k
    · subst hp
      simp [setA, getA, Ne.symm h]
    · simp [setA, getA, hp, ih]

theorem getA_filter_self {α : Type} (l : List (List Char × α)) (k : List Char) :
    getA (l.filter (fun p => !(p.1 == k))) k = none := by
  induction l with
  | nil => simp [getA]
  | cons p rest ih =>
    obtain ⟨pk, pv⟩ := p
    by_cases hp : pk = k
    · subst hp
      simp [List.filter_cons, ih]
    · simp [List.filter_cons, hp, getA, ih]

theorem getA_filter_ne {α : Type} (l : List (List Char × α)) (k k' : List Char)
    (h : k' ≠ k) : getA (l.filter (fun p => !(p.1 == k))) k' = getA l k' := by
  induction l with
  | nil => simp [getA]
  | cons p rest ih =>
    obtain ⟨pk, pv⟩ := p
    by_cases hp : pk = k
    · subst hp
      simp [List.filter_cons, getA, ih, Ne.symm h]
    · simp [List.filter_cons, hp, getA, ih]

theorem dynStep2_preserves (refMap : RefMap) (mode : List Char) (base at2 : AttrMap)
    (k : List Char) (hk1 : k ≠ hrefA) (hk2 : k ≠ gotoA)
    (h : dynStep2 refMap mode base = some at2) : getA at2 k = getA base k := by
  unfold dynStep2 at h
  split at h
  · split at h
    · simp at h
    · injection h with h
      subst h
      rfl
    · split at h
      · injection h with h
        subst h
        rw [getA_setA_ne _ _ _ _ hk1]
      · injection h with h
        subst h
        rfl
      · injection h with h
        subst h
        rfl
  · split at h
    · simp at h
    · simp at h
    · split at h
      · simp at h
      · injection h with h
        subst h
        rw [getA_setA_ne _ _ _ _ hk2]

theorem dynRewrite_eq_of_step2 (refMap : RefMap) (mode : List Char) (a : Anchor)
    (at2 : AttrMap)
    (h2 : dynStep2 refMap mode (setA a.attrs hrefA (some ['#'])) = some at2)
    (hch : (getA a.attrs checkedA).isSome = true)
    (hfa : (getA a.attrs facetsA).isSome = true) :
    dynRewrite refMap mode a = some ⟨a.dynLink,
      (at2.filter (fun p => !(p.1 == checkedA))).filter (fun p => !(p.1 == facetsA))⟩ := by
  have hc2 : getA at2 checkedA = getA a.attrs checkedA := by
    rw [dynStep2_preserves _ _ _ _ checkedA (by decide) (by decide) h2,
        getA_setA_ne _ _ _ _ (by decide)]
  have hf2 : getA at2 facetsA = getA a.attrs facetsA := by
    rw [dynStep2_preserves _ _ _ _ facetsA (by decide) (by decide) h2,
        getA_setA_ne _ _ _ _ (by decide)]
  have hdel1 : delA at2 checkedA = some (at2.filter (fun p => !(p.1 == checkedA))) := by
    simp [delA, hc2, hch]
  have hdel2 : delA (at2.filter (fun p => !(p.1 == checkedA))) facetsA =
      some ((at2.filter (fun p => !(p.1 == checkedA))).filter (fun p => !(p.1 == facetsA))) := by
    simp [delA, getA_filter_ne _ _ _ (by decide : facetsA ≠ checkedA), hf2, hfa]
  simp only [dynRewrite, h2, hdel1, hdel2]

/-- Claim C2: for a dynamic link whose anchor id is present in the
reference map, mode `all` sets `href` to `#` plus the target when the
target is non-null and to `#` alone when it is null, while any other
mode sets `href` to `#` and stores the (possibly null) target in
`data-goto`. -/
theorem dyn_link_present_rewrite (refMap : RefMap) (mode : List Char) (a : Anchor)
    (sid : List Char) (tgt : Option (List Char))
    (hid : getA a.attrs idA = some (some sid))
    (hlook : getA refMap sid = some tgt)
    (hch : (getA a.attrs checkedA).isSome = true)
    (hfa : (getA a.attrs facetsA).isSome = true) :
    ∃ a', dynRewrite refMap mode a = some a' ∧
      (mode = allMode →
        getA a'.attrs hrefA =
          some (some (match tgt with | some t => '#' :: t | none => ['#']))) ∧
      (mode ≠ allMode →
        getA a'.attrs hrefA = some (some ['#']) ∧ getA a'.attrs gotoA = some tgt) := by
  have hidb : getA (setA a.attrs hrefA (some ['#'])) idA = some (some sid) := by
    rw [getA_setA_ne _ _ _ _ (by decide)]
    exact hid
  by_cases hm : mode = allMode
  · cases tgt with
    | some t =>
      have h2 : dynStep2 refMap mode (setA a.attrs hrefA (some ['#'])) =
          some (setA (setA a.attrs hrefA (some ['#'])) hrefA (some ('#' :: t))) := by
        simp [dynStep2, hm, hidb, hlook]
      refine ⟨_, dynRewrite_eq_of_step2 _ _ _ _ h2 hch hfa, ?_, ?_⟩
      · intro _
        show getA _ hrefA = _
        rw [getA_filter_ne _ _ _ (by decide : hrefA ≠ facetsA),
            getA_filter_ne _ _ _ (by decide : hrefA ≠ checkedA), getA_setA_self]
      · intro hmm
        exact absurd hm hmm
    | none =>
      have h2 : dynStep2 refMap mode (setA a.attrs hrefA (some ['#'])) =
          some (setA a.attrs hrefA (some ['#'])) := by
        simp [dynStep2, hm, hidb, hlook]
      refine ⟨_, dynRewrite_eq_of_step2 _ _ _ _ h2 hch hfa, ?_, ?_⟩
      · intro _
        show getA _ hrefA = _
        rw [getA_filter_ne _ _ _ (by decide : hrefA ≠ facetsA),
            getA_filter_ne _ _ _ (by decide : hrefA ≠ checkedA), getA_setA_self]
      · intro hmm
        exact absurd hm hmm
  · have h2 : dynStep2 refMap mode (setA a.attrs hrefA (some ['#'])) =
        some (setA (setA a.attrs hrefA (some ['#'])) gotoA tgt) := by
      simp [dynStep2, hm, hidb, hlook]
    refine ⟨_, dynRewrite_eq_of_step2 _ _ _ _ h2 hch hfa, ?_, ?_⟩
    · intro hmm
      exact absurd hmm hm
    · intro _
      constructor
      · show getA _ hrefA = _
        rw [getA_filter_ne _ _ _ (by decide : hrefA ≠ facetsA),
            getA_filter_ne _ _ _ (by decide : hrefA ≠ checkedA),
            getA_setA_ne _ _ _ _ (by decide : hrefA ≠ gotoA), getA_setA_self]
      · show getA _ gotoA = _
        rw [getA_filter_ne _ _ _ (by decide : gotoA ≠ facetsA),
            getA_filter_ne _ _ _ (by decide : gotoA ≠ checkedA), getA_setA_self]

/-- Witness for claim C2: a dynamic link with id `a1`, reference map
`a1 -> topicX` and mode `toggle` becomes `href="#"` with
`data-goto="topicX"`. -/
theorem dyn_link_present_rewrite_witness :
    getA aDyn.attrs idA = some (some (s2l "a1")) ∧
    getA rmEx (s2l "a1") = some (some (s2l "topicX")) ∧
    (∃ a', dynRewrite rmEx toggleMode aDyn = some a' ∧
      (toggleMode = allMode →
        getA a'.attrs hrefA =
          some (some (match some (s2l "topicX") with | some t => '#' :: t | none => ['#']))) ∧
      (toggleMode ≠ allMode →
        getA a'.attrs hrefA = some (some ['#']) ∧
        getA a'.attrs gotoA = some (some (s2l "topicX")))) :=
  ⟨by decide, by decide,
    dyn_link_present_rewrite rmEx toggleMode aDyn (s2l "a1") (some (s2l "topicX"))
      (by decide) (by decide) (by decide) (by decide)⟩

/-- Claim C1 counterexample: a dynamic link whose anchor id `a1` has no
entry at all in the reference map makes the rewrite raise a `KeyError`
in mode `single` instead of leaving the link inert, so the claimed
behaviour does not hold regardless of mode. -/
theorem dyn_link_missing_counterexample :
    rewriteDoc [] singleMode [aDyn] = none := by decide

/-- Claim C1 (amended): a dynamic link whose anchor id is absent from
the reference map is left inert (`href="#"`, no `data-goto`) without
error in mode `all` only; in any other mode the rewrite raises a
`KeyError`. -/
theorem dyn_link_missing_amended (refMap : RefMap) (mode : List Char) (a : Anchor)
    (sid : List Char)
    (hid : getA a.attrs idA = some (some sid))
    (hlook : getA refMap sid = none)
    (hch : (getA a.attrs checkedA).isSome = true)
    (hfa : (getA a.attrs facetsA).isSome = true)
    (hgoto : getA a.attrs gotoA = none) :
    (mode = allMode → ∃ a', dynRewrite refMap mode a = some a' ∧
       getA a'.attrs hrefA = some (some ['#']) ∧ getA a'.attrs gotoA = none) ∧
    (mode ≠ allMode → dynRewrite refMap mode a = none) := by
  have hidb : getA (setA a.attrs hrefA (some ['#'])) idA = some (some sid) := by
    rw [getA_setA_ne _ _ _ _ (by decide)]
    exact hid
  constructor
  · intro hm
    have h2 : dynStep2 refMap mode (setA a.attrs hrefA (some ['#'])) =
        some (setA a.attrs hrefA (some ['#'])) := by
      simp [dynStep2, hm, hidb, hlook]
    refine ⟨_, dynRewrite_eq_of_step2 _ _ _ _ h2 hch hfa, ?_, ?_⟩
    · show getA _ hrefA = _
      rw [getA_filter_ne _ _ _ (by decide : hrefA ≠ facetsA),
          getA_filter_ne _ _ _ (by decide : hrefA ≠ checkedA), getA_setA_self]
    · show getA _ gotoA = _
      rw [getA_filter_ne _ _ _ (by decide : gotoA ≠ facetsA),
          getA_filter_ne _ _ _ (by decide : gotoA ≠ checkedA),
          getA_setA_ne _ _ _ _ (by decide : gotoA ≠ hrefA)]
      exact hgoto
  · intro hm
    have h2 : dynStep2 refMap mode (setA a.attrs hrefA (some ['#'])) = none := by
      simp [dynStep2, hm, hidb, hlook]
    simp only [dynRewrite, h2]

/-- Witness for the amended claim C1: in mode `all` the same dynamic
link with an empty reference map comes out inert. -/
theorem dyn_link_missing_amended_witness :
    getA ([] : RefMap) (s2l "a1") = none ∧
    (allMode = allMode → ∃ a', dynRewrite [] allMode aDyn = some a' ∧
       getA a'.attrs hrefA = some (some ['#']) ∧ getA a'.attrs gotoA = none) ∧
    (allMode ≠ allMode → dynRewrite [] allMode aDyn = none) :=
  ⟨by decide,
   (dyn_link_missing_amended [] allMode aDyn (s2l "a1")
      (by decide) (by decide) (by decide) (by decide) (by decide)).1,
   (dyn_link_missing_amended [] allMode aDyn (s2l "a1")
      (by decide) (by decide) (by decide) (by decide) (by decide)).2⟩

/-- Claim C3: an intra-document fragment link (href starting with `#`,
not a dynamic link) gets `href="#"` and `data-goto` set to the fragment
identifier without its leading `#` when the mode is not `all`, and is
left completely unchanged when the mode is `all`. -/
theorem frag_link_rewrite (refMap : RefMap) (mode : List Char) (a : Anchor)
    (frag : List Char)
    (hdyn : a.dynLink = false)
    (hhref : getA a.attrs hrefA = some (some ('#' :: frag))) :
    (mode ≠ allMode → ∃ a', rewriteLink refMap mode a = some a' ∧
       getA a'.attrs hrefA = some (some ['#']) ∧
       getA a'.attrs gotoA = some (some frag)) ∧
    (mode = allMode → rewriteLink refMap mode a = some a) := by
  have hsel : isFragSel a = true := by
    simp [isFragSel, hhref]
  have hfr : fragRewrite a =
      { a with attrs := setA (setA a.attrs gotoA (some frag)) hrefA (some ['#']) } := by
    simp [fragRewrite, hhref]
  constructor
  · intro hm
    refine ⟨fragRewrite a, ?_, ?_, ?_⟩
    · have hif : (if mode ≠ allMode ∧ isFragSel a = true then fragRewrite a else a) =
          fragRewrite a := if_pos ⟨hm, hsel⟩
      have hd1 : (fragRewrite a).dynLink = false := by
        rw [hfr]
        exact hdyn
      simp only [rewriteLink, hif, rewriteDynStage, hd1]
      simp
    · rw [hfr]
      show getA (setA (setA a.attrs gotoA (some frag)) hrefA (some ['#'])) hrefA = _
      rw [getA_setA_self]
    · rw [hfr]
      show getA (setA (setA a.attrs gotoA (some frag)) hrefA (some ['#'])) gotoA = _
      rw [getA_setA_ne _ _ _ _ (by decide : gotoA ≠ hrefA), getA_setA_self]
  · intro hm
    have hif : (if mode ≠ allMode ∧ isFragSel a = true then fragRewrite a else a) = a := by
      apply if_neg
      intro hcontra
      exact hcontra.1 hm
    simp only [rewriteLink, hif, rewriteDynStage, hdyn]
    simp

/-- Witness for claim C3: the fragment link `#fig1` in mode `single`
becomes `href="#"` with `data-goto="fig1"`, and in mode `all` it is
returned unchanged. -/
theorem frag_link_rewrite_witness :
    aFrag.dynLink = false ∧
    getA aFrag.attrs hrefA = some (some ('#' :: s2l "fig1")) ∧
    (singleMode ≠ allMode → ∃ a', rewriteLink [] singleMode aFrag = some a' ∧
       getA a'.attrs hrefA = some (some ['#']) ∧
       getA a'.attrs gotoA = some (some (s2l "fig1"))) ∧
    (singleMode = allMode → rewriteLink [] singleMode aFrag = some aFrag) :=
  ⟨by decide, by decide,
   (frag_link_rewrite [] singleMode aFrag (s2l "fig1") (by decide) (by decide)).1,
   (frag_link_rewrite [] singleMode aFrag (s2l "fig1") (by decide) (by decide)).2⟩

/-- Claim C10: the dynamic-link loop presumes `checked-link` and
`data-facets` on every dynamic link: it deletes both unconditionally
when it succeeds, and when either attribute is missing it raises a
`KeyError` instead of skipping the link. -/
theorem dyn_link_attr_requirement (refMap : RefMap) (mode : List Char) (a : Anchor) :
    (getA a.attrs checkedA = none → dynRewrite refMap mode a = none) ∧
    (getA a.attrs facetsA = none → dynRewrite refMap mode a = none) ∧
    (∀ a', dynRewrite refMap mode a = some a' →
      (getA a.attrs checkedA).isSome = true ∧ (getA a.attrs facetsA).isSome = true ∧
      getA a'.attrs checkedA = none ∧ getA a'.attrs facetsA = none) := by
  refine ⟨?_, ?_, ?_⟩
  · intro hch
    cases h2 : dynStep2 refMap mode (setA a.attrs hrefA (some ['#'])) with
    | none => simp only [dynRewrite, h2]
    | some at2 =>
      have hc2 : getA at2 checkedA = none := by
        rw [dynStep2_preserves _ _ _ _ checkedA (by decide) (by decide) h2,
            getA_setA_ne _ _ _ _ (by decide)]
        exact hch
      have hdel : delA at2 checkedA = none := by simp [delA, hc2]
      simp only [dynRewrite, h2, hdel]
  · intro hfa
    cases h2 : dynStep2 refMap mode (setA a.attrs hrefA (some ['#'])) with
    | none => simp only [dynRewrite, h2]
    | some at2 =>
      have hf2 : getA at2 facetsA = none := by
        rw [dynStep2_preserves _ _ _ _ facetsA (by decide) (by decide) h2,
            getA_setA_ne _ _ _ _ (by decide)]
        exact hfa
      cases h3 : delA at2 checkedA with
      | none => simp only [dynRewrite, h2, h3]
      | some at3 =>
        have hat3 : at3 = at2.filter (fun p => !(p.1 == checkedA)) := by
          unfold delA at h3
          split at h3
          · injection h3 with h3
            exact h3.symm
          · simp at h3
        have hdel : delA at3 facetsA = none := by
          simp [delA, hat3, getA_filter_ne _ _ _ (by decide : facetsA ≠ checkedA), hf2]
        simp only [dynRewrite, h2, h3, hdel]
  · intro a' h
    cases h2 : dynStep2 refMap mode (setA a.attrs hrefA (some ['#'])) with
    | none =>
      simp only [dynRewrite, h2] at h
      simp at h
    | some at2 =>
      simp only [dynRewrite, h2] at h
      have hc2 : getA at2 checkedA = getA a.attrs checkedA := by
        rw [dynStep2_preserves _ _ _ _ checkedA (by decide) (by decide) h2,
            getA_setA_ne _ _ _ _ (by decide)]
      have hf2 : getA at2 facetsA = getA a.attrs facetsA := by
        rw [dynStep2_preserves _ _ _ _ facetsA (by decide) (by decide) h2,
            getA_setA_ne _ _ _ _ (by decide)]
      cases h3 : delA at2 checkedA with
      | none =>
        simp only [h3] at h
        exact absurd h (by simp)
      | some at3 =>
        simp only [h3] at h
        have hdel3 := h3
        unfold delA at hdel3
        split at hdel3
        case isTrue hsome1 =>
          have hat3 : at3 = at2.filter (fun p => !(p.1 == checkedA)) := by
            injection hdel3 with hdel3
            exact hdel3.symm
          cases h4 : delA at3 facetsA with
          | none =>
            simp only [h4] at h
            exact absurd h (by simp)
          | some at4 =>
            simp only [h4] at h
            have hdel4 := h4
            unfold delA at hdel4
            split at hdel4
            case isTrue hsome2 =>
              have hat4 : at4 = at3.filter (fun p => !(p.1 == facetsA)) := by
                injection hdel4 with hdel4
                exact hdel4.symm
              injection h with h
              subst h
              refine ⟨?_, ?_, ?_, ?_⟩
              · rw [← hc2]
                exact hsome1
              · have hft : getA at3 facetsA = getA a.attrs facetsA := by
                  rw [hat3, getA_filter_ne _ _ _ (by decide : facetsA ≠ checkedA), hf2]
                rw [← hft]
                exact hsome2
              · show getA at4 checkedA = none
                rw [hat4, getA_filter_ne _ _ _ (by decide : checkedA ≠ facetsA), hat3,
                    getA_filter_self]
              · show getA at4 facetsA = none
                rw [hat4, getA_filter_self]
            case isFalse hf =>
              simp at hdel4
        case isFalse hf =>
          simp at hdel3

/-- Witness for claim C10: a dynamic link lacking `checked-link` makes
the rewrite raise a `KeyError`. -/
theorem dyn_link_attr_requirement_witness :
    getA aNoChecked.attrs checkedA = none ∧
    dynRewrite rmEx toggleMode aNoChecked = none :=
  ⟨by decide, (dyn_link_attr_requirement rmEx toggleMode aNoChecked).1 (by decide)⟩

/-- Claim C9: the leaf unwrap step is not total: a successfully fetched
body that contains `</html>` but does not start with an `<html...>` tag
fails the anchored regex match, and assembling that leaf aborts with an
uncaught exception instead of producing a rendered unit. -/
theorem unwrap_not_total :
    fetchC9 (s2l "k9") = Except.ok ⟨s2l "x</html>", []⟩ ∧
    containsSub (s2l "</html>") (s2l "x</html>") = true ∧
    (s2l "<html").isPrefixOf (s2l "x</html>") = false ∧
    htmlUnwrapMatch (s2l "x</html>") = none ∧
    build_dom fetchC9 tmplEx tocSidebar false leafC9 0 =
      Except.error BErr.uncaughtExc := by
  decide

theorem isOk_ok {e a : Type} (x : a) : (Except.ok x : Except e a).isOk = true := rfl

theorem isOk_error {e a : Type} (x : e) : (Except.error x : Except e a).isOk = false := rfl

mutual

theorem build_tolerant_ok (fetch : List Char → Except Unit Fragment) (tmpl : Templates)
    (tocPos : List Char) :
    ∀ (t : Topic) (lv : Nat), goodTopic fetch t = true →
      (build_dom fetch tmpl tocPos false t lv).isOk = true
  | Topic.node nodeId label lt ch, lv, hg => by
    by_cases hch : ch.isEmpty
    · simp only [goodTopic, if_pos hch] at hg
      simp only [build_dom, if_pos hch]
      by_cases hlt : lt = []
      · simp [fetchLeafContent, hlt, isOk_ok]
      · rw [if_neg hlt] at hg
        cases hf : fetch lt with
        | error e => simp [fetchLeafContent, hlt, hf, isOk_ok]
        | ok frag =>
          simp only [hf] at hg
          by_cases hcs : containsSub (s2l "</html>") frag.bodyHtml = true
          · rw [hcs] at hg
            simp only [Bool.not_true, Bool.false_or] at hg
            cases hu : htmlUnwrapMatch frag.bodyHtml with
            | none => rw [hu] at hg; simp at hg
            | some inner => simp [fetchLeafContent, hlt, hf, hcs, hu, isOk_ok]
          · simp [fetchLeafContent, hlt, hf, hcs, isOk_ok]
    · simp only [goodTopic, if_neg hch] at hg
      simp only [build_dom, if_neg hch]
      have h := build_tolerant_ok_list fetch tmpl tocPos ch (lv + 1) [] [] [] hg
      cases hc : build_children fetch tmpl tocPos false ch (lv + 1) [] [] [] with
      | error e =>
        rw [hc, isOk_error] at h
        exact absurd h (by simp)
      | ok res => simp [hc, isOk_ok]

theorem build_tolerant_ok_list (fetch : List Char → Except Unit Fragment)
    (tmpl : Templates) (tocPos : List Char) :
    ∀ (ts : List Topic) (lv : Nat) (aB aT : List Char) (aH : RefMap),
      goodTopics fetch ts = true →
      (build_children fetch tmpl tocPos false ts lv aB aT aH).isOk = true
  | [], _, aB, aT, aH, _ => by
    simp only [build_children]
    rfl
  | t :: ts, lv, aB, aT, aH, hg => by
    simp only [goodTopics, Bool.and_eq_true] at hg
    simp only [build_children]
    have h1 := build_tolerant_ok fetch tmpl tocPos t lv hg.1
    cases hd : build_dom fetch tmpl tocPos false t lv with
    | error e =>
      rw [hd, isOk_error] at h1
      exact absurd h1 (by simp)
    | ok res =>
      simp only [hd]
      exact build_tolerant_ok_list fetch tmpl tocPos ts lv _ _ _ hg.2

end

mutual

theorem build_fatal_no_ok (fetch : List Char → Except Unit Fragment) (tmpl : Templates)
    (tocPos : List Char) :
    ∀ (t : Topic) (lv : Nat), hasFailLeaf fetch t = true →
      ∀ res, build_dom fetch tmpl tocPos true t lv ≠ Except.ok res
  | Topic.node nodeId label lt ch, lv, hfl, res => by
    by_cases hch : ch.isEmpty
    · simp only [hasFailLeaf, if_pos hch, Bool.and_eq_true] at hfl
      obtain ⟨hlt, hm⟩ := hfl
      have hlt' : ¬ lt = [] := by
        simpa using hlt
      cases hf : fetch lt with
      | ok frag => rw [hf] at hm; simp at hm
      | error e =>
        intro hcontra
        simp only [build_dom, if_pos hch, fetchLeafContent, if_neg hlt', hf] at hcontra
        simp at hcontra
    · simp only [hasFailLeaf, if_neg hch] at hfl
      intro hcontra
      simp only [build_dom, if_neg hch] at hcontra
      cases hc : build_children fetch tmpl tocPos true ch (lv + 1) [] [] [] with
      | error e => rw [hc] at hcontra; simp at hcontra
      | ok cres =>
        exact build_fatal_no_ok_list fetch tmpl tocPos ch (lv + 1) hfl [] [] [] cres hc

theorem build_fatal_no_ok_list (fetch : List Char → Except Unit Fragment)
    (tmpl : Templates) (tocPos : List Char) :
    ∀ (ts : List Topic) (lv : Nat), hasFailLeafList fetch ts = true →
      ∀ (aB aT : List Char) (aH : RefMap) res,
        build_children fetch tmpl tocPos true ts lv aB aT aH ≠ Except.ok res
  | [], _, hfl, _, _, _, _ => by
    simp [hasFailLeafList] at hfl
  | t :: ts, lv, hfl, aB, aT, aH, res => by
    simp only [hasFailLeafList, Bool.or_eq_true] at hfl
    intro hcontra
    simp only [build_children] at hcontra
    cases hd : build_dom fetch tmpl tocPos true t lv with
    | error e => rw [hd] at hcontra; simp at hcontra
    | ok dres =>
      rcases hfl with h | h
      · exact build_fatal_no_ok fetch tmpl tocPos t lv h dres hd
      · rw [hd] at hcontra
        exact build_fatal_no_ok_list fetch tmpl tocPos ts lv h _ _ _ res hcontra

end

theorem goodTopics_append (fetch : List Char → Except Unit Fragment) :
    ∀ (l1 l2 : List Topic),
      goodTopics fetch (l1 ++ l2) = (goodTopics fetch l1 && goodTopics fetch l2) := by
  intro l1
  induction l1 with
  | nil => intro l2; simp [goodTopics]
  | cons t ts ih =>
    intro l2
    simp [goodTopics, ih, Bool.and_assoc]

theorem hasFailLeafList_append (fetch : List Char → Except Unit Fragment) :
    ∀ (l1 l2 : List Topic),
      hasFailLeafList fetch (l1 ++ l2) =
        (hasFailLeafList fetch l1 || hasFailLeafList fetch l2) := by
  intro l1
  induction l1 with
  | nil => intro l2; simp [hasFailLeafList]
  | cons t ts ih =>
    intro l2
    simp [hasFailLeafList, ih, Bool.or_assoc]

/-- Claim C5: when a leaf's content fetch fails with a not-found error
the tolerant policy substitutes the empty placeholder `<div></div>`,
renders the leaf's unit normally, and assembly of all sibling subtrees
still completes; under the fatal policy any assembly containing such a
leaf never yields a result. -/
theorem tolerant_failure_policy (fetch : List Char → Except Unit Fragment)
    (tmpl : Templates) (tocPos : List Char) (nodeId label lt : List Char) (lv : Nat)
    (hlt : lt ≠ [])
    (hfail : fetch lt = Except.error ()) :
    (build_dom fetch tmpl tocPos false (Topic.node nodeId label lt []) lv =
      Except.ok
        (replace_in_template tmpl.topic_wo_children
          [(s2l "TOPIC_ID", nodeId), (s2l "TOPIC_LINK", lt),
           (s2l "TOPIC_TITLE", label), (s2l "TOPIC_CONTENT", s2l "<div></div>")],
         replace_in_template tmpl.toc_wo_children
          [(s2l "TOPIC_ID", nodeId), (s2l "TOPIC_LINK", lt),
           (s2l "TOPIC_TITLE", label), (s2l "TOPIC_CONTENT", s2l "<div></div>")],
         ([] : RefMap))) ∧
    (∀ (pre post : List Topic) (aB aT : List Char) (aH : RefMap),
      goodTopics fetch pre = true → goodTopics fetch post = true →
      (build_children fetch tmpl tocPos false
        (pre ++ Topic.node nodeId label lt [] :: post) lv aB aT aH).isOk = true) ∧
    (∀ (rootId rootLabel rootLt : List Char) (pre post : List Topic) (lv2 : Nat)
        (res : List Char × List Char × RefMap),
      build_dom fetch tmpl tocPos true
        (Topic.node rootId rootLabel rootLt
          (pre ++ Topic.node nodeId label lt [] :: post)) lv2 ≠ Except.ok res) := by
  have hgoodleaf : goodTopic fetch (Topic.node nodeId label lt []) = true := by
    simp [goodTopic, hlt, hfail]
  have hfailleaf : hasFailLeaf fetch (Topic.node nodeId label lt []) = true := by
    simp [hasFailLeaf, hlt, hfail]
  refine ⟨?_, ?_, ?_⟩
  · simp [build_dom, fetchLeafContent, hlt, hfail]
  · intro pre post aB aT aH hpre hpost
    apply build_tolerant_ok_list
    rw [goodTopics_append]
    simp [goodTopics, hpre, hpost, hgoodleaf]
  · intro rootId rootLabel rootLt pre post lv2 res
    apply build_fatal_no_ok
    have hne : (pre ++ Topic.node nodeId label lt [] :: post).isEmpty = false := by
      cases pre <;> simp
    simp only [hasFailLeaf, hne, Bool.false_eq_true, if_false]
    rw [hasFailLeafList_append]
    simp [hasFailLeafList, hfailleaf]

/-- Witness for claim C5: with a fetch oracle that always fails, a
fetchable leaf renders with the placeholder body under the tolerant
policy, siblings still assemble, and the fatal policy yields no
result. -/
theorem tolerant_failure_policy_witness :
    (s2l "k1" ≠ []) ∧ fetchFailEx (s2l "k1") = Except.error () ∧
    ((build_dom fetchFailEx tmplEx tocSidebar false
        (Topic.node (s2l "n1") (s2l "L1") (s2l "k1") []) 0 =
      Except.ok
        (replace_in_template tmplEx.topic_wo_children
          [(s2l "TOPIC_ID", s2l "n1"), (s2l "TOPIC_LINK", s2l "k1"),
           (s2l "TOPIC_TITLE", s2l "L1"), (s2l "TOPIC_CONTENT", s2l "<div></div>")],
         replace_in_template tmplEx.toc_wo_children
          [(s2l "TOPIC_ID", s2l "n1"), (s2l "TOPIC_LINK", s2l "k1"),
           (s2l "TOPIC_TITLE", s2l "L1"), (s2l "TOPIC_CONTENT", s2l "<div></div>")],
         ([] : RefMap))) ∧
    (∀ (pre post : List Topic) (aB aT : List Char) (aH : RefMap),
      goodTopics fetchFailEx pre = true → goodTopics fetchFailEx post = true →
      (build_children fetchFailEx tmplEx tocSidebar false
        (pre ++ Topic.node (s2l "n1") (s2l "L1") (s2l "k1") [] :: post) 0 aB aT aH).isOk
          = true) ∧
    (∀ (rootId rootLabel rootLt : List Char) (pre post : List Topic) (lv2 : Nat)
        (res : List Char × List Char × RefMap),
      build_dom fetchFailEx tmplEx tocSidebar true
        (Topic.node rootId rootLabel rootLt
          (pre ++ Topic.node (s2l "n1") (s2l "L1") (s2l "k1") [] :: post)) lv2 ≠
        Except.ok res)) ∧
    goodTopics fetchFailEx [goodLeafEx] = true ∧
    (build_children fetchFailEx tmplEx tocSidebar false
      [Topic.node (s2l "n1") (s2l "L1") (s2l "k1") [], goodLeafEx] 0 [] [] []).isOk
        = true :=
  ⟨by decide, by decide,
   tolerant_failure_policy fetchFailEx tmplEx tocSidebar (s2l "n1") (s2l "L1")
     (s2l "k1") 0 (by decide) (by decide),
   by decide, by decide⟩

theorem getA_none_of_not_mem {α : Type} (l : List (List Char × α)) (k : List Char)
    (h : k ∉ l.map Prod.fst) : getA l k = none := by
  induction l with
  | nil => rfl
  | cons p rest ih =>
    obtain ⟨pk, pv⟩ := p
    simp only [List.map_cons, List.mem_cons] at h
    push_neg at h
    simp [getA, Ne.symm h.1, ih h.2]

theorem dictUpdate_disjoint (a b : RefMap) (h : keysDisjoint a b) :
    dictUpdate a b = a ++ b := by
  unfold keysDisjoint at h
  unfold dictUpdate
  congr 1
  · conv_rhs => rw [← List.map_id a]
    apply List.map_congr_left
    intro p hp
    have hn : getA b p.1 = none := by
      apply getA_none_of_not_mem
      exact h p.1 (List.mem_map.mpr ⟨p, hp, rfl⟩)
    simp [hn]
  · apply List.filter_eq_self.mpr
    intro q hq
    have hqa : q.1 ∉ a.map Prod.fst := by
      intro hin
      exact h q.1 hin (List.mem_map.mpr ⟨q, hq, rfl⟩)
    rw [getA_none_of_not_mem _ _ hqa]
    rfl

theorem mem_keys_flatten {k : List Char} {ms : List RefMap} :
    k ∈ (ms.flatten).map Prod.fst ↔ ∃ m ∈ ms, k ∈ m.map Prod.fst := by
  constructor
  · intro h
    rcases List.mem_map.mp h with ⟨p, hp, hpk⟩
    rcases List.mem_flatten.mp hp with ⟨m, hm, hpm⟩
    exact ⟨m, hm, List.mem_map.mpr ⟨p, hpm, hpk⟩⟩
  · rintro ⟨m, hm, hk⟩
    rcases List.mem_map.mp hk with ⟨p, hpm, hpk⟩
    exact List.mem_map.mpr ⟨p, List.mem_flatten.mpr ⟨m, hm, hpm⟩, hpk⟩

mutual

theorem build_refmap (fetch : List Char → Except Unit Fragment) (tmpl : Templates)
    (tocPos : List Char) (crash : Bool) :
    ∀ (t : Topic) (lv : Nat) (res : List Char × List Char × RefMap),
      build_dom fetch tmpl tocPos crash t lv = Except.ok res →
      List.Pairwise keysDisjoint (leafMaps fetch t) →
      res.2.2 = (leafMaps fetch t).flatten
  | Topic.node nodeId label lt ch, lv, res, hok, hpd => by
    by_cases hch : ch.isEmpty
    · simp only [build_dom, if_pos hch] at hok
      simp only [leafMaps, if_pos hch]
      cases hf : fetchLeafContent fetch crash lt with
      | error e =>
        rw [hf] at hok
        exact absurd hok (by simp)
      | ok cr =>
        simp only [hf] at hok
        injection hok with hok
        subst hok
        show cr.2 = _
        unfold fetchLeafContent at hf
        by_cases hlt : lt = []
        · rw [if_pos hlt] at hf
          injection hf with hf
          rw [if_pos hlt, ← hf]
          rfl
        · rw [if_neg hlt] at hf
          rw [if_neg hlt]
          cases hfe : fetch lt with
          | error e =>
            simp only [hfe] at hf ⊢
            cases crash with
            | true => simp at hf
            | false =>
              simp only [Bool.false_eq_true, if_false] at hf
              injection hf with hf
              rw [← hf]
              rfl
          | ok frag =>
            simp only [hfe] at hf ⊢
            by_cases hcs : containsSub (s2l "</html>") frag.bodyHtml = true
            · rw [if_pos hcs] at hf
              cases hu : htmlUnwrapMatch frag.bodyHtml with
              | none =>
                rw [hu] at hf
                simp at hf
              | some inner =>
                simp only [hu] at hf
                injection hf with hf
                rw [← hf]
                simp
            · rw [if_neg hcs] at hf
              injection hf with hf
              rw [← hf]
              simp
    · simp only [build_dom, if_neg hch] at hok
      simp only [leafMaps, if_neg hch] at hpd ⊢
      cases hc : build_children fetch tmpl tocPos crash ch (lv + 1) [] [] [] with
      | error e =>
        rw [hc] at hok
        exact absurd hok (by simp)
      | ok cres =>
        simp only [hc] at hok
        injection hok with hok
        subst hok
        show cres.2.2 = _
        have hpd' : List.Pairwise keysDisjoint (([] : RefMap) :: leafMapsList fetch ch) := by
          apply List.pairwise_cons.mpr
          refine ⟨?_, hpd⟩
          intro m _ k hk
          simp at hk
        have := build_refmap_list fetch tmpl tocPos crash ch (lv + 1) [] [] [] cres hc hpd'
        simpa using this

theorem build_refmap_list (fetch : List Char → Except Unit Fragment) (tmpl : Templates)
    (tocPos : List Char) (crash : Bool) :
    ∀ (ts : List Topic) (lv : Nat) (aB aT : List Char) (aH : RefMap)
        (res : List Char × List Char × RefMap),
      build_children fetch tmpl tocPos crash ts lv aB aT aH = Except.ok res →
      List.Pairwise keysDisjoint (aH :: leafMapsList fetch ts) →
      res.2.2 = aH ++ (leafMapsList fetch ts).flatten
  | [], lv, aB, aT, aH, res, hok, _ => by
    simp only [build_children] at hok
    injection hok with hok
    subst hok
    show aH = _
    simp [leafMapsList]
  | t :: ts, lv, aB, aT, aH, res, hok, hpd => by
    simp only [build_children] at hok
    cases hd : build_dom fetch tmpl tocPos crash t lv with
    | error e =>
      rw [hd] at hok
      exact absurd hok (by simp)
    | ok dres =>
      simp only [hd] at hok
      simp only [leafMapsList] at hpd ⊢
      rcases List.pairwise_cons.mp hpd with ⟨hhead, htail⟩
      rcases List.pairwise_append.mp htail with ⟨hp1, hp2, hcross⟩
      have hd2 : dres.2.2 = (leafMaps fetch t).flatten :=
        build_refmap fetch tmpl tocPos crash t lv dres hd hp1
      have hdisj : keysDisjoint aH dres.2.2 := by
        rw [hd2]
        intro k hk hk2
        rcases mem_keys_flatten.mp hk2 with ⟨m, hm, hkm⟩
        exact (hhead m (List.mem_append.mpr (Or.inl hm))) k hk hkm
      have hupd : dictUpdate aH dres.2.2 = aH ++ dres.2.2 :=
        dictUpdate_disjoint _ _ hdisj
      have hpd' : List.Pairwise keysDisjoint
          ((dictUpdate aH dres.2.2) :: leafMapsList fetch ts) := by
        rw [hupd, hd2]
        apply List.pairwise_cons.mpr
        refine ⟨?_, hp2⟩
        intro m hm k hk hk2
        rw [List.map_append, List.mem_append] at hk
        rcases hk with hk | hk
        · exact (hhead m (List.mem_append.mpr (Or.inr hm))) k hk hk2
        · rcases mem_keys_flatten.mp hk with ⟨m', hm', hkm'⟩
          exact (hcross m' hm' m hm) k hkm' hk2
      have hrec := build_refmap_list fetch tmpl tocPos crash ts lv _ _ _ res hok hpd'
      rw [hrec, hupd, hd2, List.flatten_append, List.append_assoc]

end

/-- Claim C4: when the fetched leaf reference maps have pairwise
disjoint anchor-id keys, the reference map of the fully assembled tree
is exactly the concatenation of every leaf's fetched reference map, so
no entry is dropped or duplicated. -/
theorem assembled_refmap_union (fetch : List Char → Except Unit Fragment)
    (tmpl : Templates) (tocPos : List Char) (crash : Bool) (t : Topic) (lv : Nat)
    (res : List Char × List Char × RefMap)
    (hok : build_dom fetch tmpl tocPos crash t lv = Except.ok res)
    (hpd : List.Pairwise keysDisjoint (leafMaps fetch t)) :
    res.2.2 = (leafMaps fetch t).flatten :=
  build_refmap fetch tmpl tocPos crash t lv res hok hpd

/-- Witness for claim C4: a tree with two fetchable leaves whose
reference maps have disjoint keys assembles to exactly their
concatenation. -/
theorem assembled_refmap_union_witness :
    build_dom fetchC4 tmplEx tocSidebar false treeC4 0 = Except.ok resC4 ∧
    List.Pairwise keysDisjoint (leafMaps fetchC4 treeC4) ∧
    resC4.2.2 = (leafMaps fetchC4 treeC4).flatten :=
  ⟨by decide, by decide,
   assembled_refmap_union fetchC4 tmplEx tocSidebar false treeC4 0 resC4
     (by decide) (by decide)⟩

theorem isPrefixOf_spec : ∀ (p l : List Char), p.isPrefixOf l = true ↔ ∃ t, l = p ++ t := by
  intro p
  induction p with
  | nil =>
    intro l
    simp [List.isPrefixOf]
  | cons c p' ih =>
    intro l
    cases l with
    | nil => simp [List.isPrefixOf]
    | cons d l' =>
      simp only [List.isPrefixOf, Bool.and_eq_true, beq_iff_eq, ih]
      constructor
      · rintro ⟨rfl, t, rfl⟩
        exact ⟨t, rfl⟩
      · rintro ⟨t, h⟩
        injection h with h1 h2
        exact ⟨h1.symm, t, h2⟩

theorem replaceF_congr (pat rep : List Char) :
    ∀ (n f1 f2 : Nat) (s : List Char), s.length ≤ n → s.length ≤ f1 → s.length ≤ f2 →
      replaceF pat rep f1 s = replaceF pat rep f2 s := by
  intro n
  induction n with
  | zero =>
    intro f1 f2 s hn _ _
    have hs : s = [] := List.eq_nil_of_length_eq_zero (Nat.le_zero.mp hn)
    subst hs
    cases f1 <;> cases f2 <;> rfl
  | succ n ih =>
    intro f1 f2 s hn h1 h2
    cases s with
    | nil => cases f1 <;> cases f2 <;> rfl
    | cons c rest =>
      cases f1 with
      | zero => simp at h1
      | succ f1' =>
        cases f2 with
        | zero => simp at h2
        | succ f2' =>
          simp only [List.length_cons, Nat.succ_le_succ_iff] at hn h1 h2
          simp only [replaceF]
          by_cases hc : pat ≠ [] ∧ pat.isPrefixOf (c :: rest) = true
          · rw [if_pos hc, if_pos hc]
            congr 1
            have hd : (rest.drop (pat.length - 1)).length ≤ rest.length := by
              simp only [List.length_drop]
              omega
            exact ih f1' f2' _ (le_trans hd hn) (le_trans hd h1) (le_trans hd h2)
          · rw [if_neg hc, if_neg hc]
            congr 1
            exact ih f1' f2' rest hn h1 h2

theorem replaceAll_cons (pat rep : List Char) (c : Char) (rest : List Char) :
    replaceAll pat rep (c :: rest) =
      if pat ≠ [] ∧ pat.isPrefixOf (c :: rest) = true then
        rep ++ replaceAll pat rep (rest.drop (pat.length - 1))
      else c :: replaceAll pat rep rest := by
  unfold replaceAll
  simp only [List.length_cons, replaceF]
  by_cases hc : pat ≠ [] ∧ pat.isPrefixOf (c :: rest) = true
  · rw [if_pos hc, if_pos hc]
    congr 1
    apply replaceF_congr pat rep rest.length
    · simp only [List.length_drop]
      omega
    · simp only [List.length_drop]
      omega
    · exact le_refl _
  · rw [if_neg hc, if_neg hc]

theorem noOcc_replaceAll (pat rep : List Char) (_hne : pat ≠ []) :
    ∀ (s : List Char), (∀ x z, s ≠ x ++ pat ++ z) → replaceAll pat rep s = s := by
  intro s
  induction s with
  | nil => intro _; rfl
  | cons c rest ih =>
    intro h
    rw [replaceAll_cons]
    have hpre : ¬ (pat.isPrefixOf (c :: rest) = true) := by
      intro hp
      rcases (isPrefixOf_spec pat (c :: rest)).mp hp with ⟨t, ht⟩
      exact h [] t (by simpa using ht)
    rw [if_neg (fun hc => hpre hc.2)]
    congr 1
    apply ih
    intro x z hxz
    exact h (c :: x) z (by rw [hxz]; rfl)

theorem replaceAll_split (pat rep : List Char) (hne : pat ≠ []) :
    ∀ (a b : List Char),
      (∀ a1 a2, a = a1 ++ a2 → a2 ≠ [] →
        ¬ (pat.isPrefixOf (a2 ++ pat ++ b) = true)) →
      replaceAll pat rep (a ++ pat ++ b) = a ++ rep ++ replaceAll pat rep b := by
  intro a
  induction a with
  | nil =>
    intro b _
    cases pat with
    | nil => exact absurd rfl hne
    | cons p pt =>
      show replaceAll (p :: pt) rep (p :: (pt ++ b)) = _
      rw [replaceAll_cons]
      have hc : (p :: pt) ≠ [] ∧ (p :: pt).isPrefixOf (p :: (pt ++ b)) = true :=
        ⟨by simp, (isPrefixOf_spec _ _).mpr ⟨b, by simp⟩⟩
      rw [if_pos hc]
      have hd : (pt ++ b).drop ((p :: pt).length - 1) = b := by
        simp only [List.length_cons, Nat.add_sub_cancel]
        exact List.drop_left pt b
      rw [hd]
      rfl
  | cons c a' ih =>
    intro b h
    show replaceAll pat rep (c :: (a' ++ pat ++ b)) = _
    rw [replaceAll_cons]
    have hnp : ¬ (pat.isPrefixOf ((c :: a') ++ pat ++ b) = true) :=
      h [] (c :: a') rfl (by simp)
    rw [if_neg (fun hc => hnp hc.2)]
    rw [ih b ?ha]
    · rfl
    · intro a1 a2 ha hne2
      exact h (c :: a1) a2 (by rw [ha]; rfl) hne2

theorem renderT_append : ∀ (A B : List TPiece), renderT (A ++ B) = renderT A ++ renderT B := by
  intro A
  induction A with
  | nil => intro B; simp [renderT]
  | cons p T ih =>
    intro B
    cases p <;> simp [renderT, ih, List.append_assoc]

theorem holesOf_append : ∀ (A B : List TPiece), holesOf (A ++ B) = holesOf A ++ holesOf B := by
  intro A
  induction A with
  | nil => intro B; simp [holesOf]
  | cons p T ih =>
    intro B
    cases p <;> simp [holesOf, ih]

theorem substT_append (r : List (List Char × List Char)) :
    ∀ (A B : List TPiece), substT r (A ++ B) = substT r A ++ substT r B := by
  intro A
  induction A with
  | nil => intro B; simp [substT]
  | cons p T ih =>
    intro B
    cases p <;> simp [substT, ih, List.append_assoc]

theorem substT_no_holes (r : List (List Char × List Char)) :
    ∀ (T : List TPiece), holesOf T = [] → substT r T = renderT T := by
  intro T
  induction T with
  | nil => intro _; rfl
  | cons p T' ih =>
    intro h
    cases p with
    | lit s =>
      rw [holesOf] at h
      rw [substT, renderT, ih h]
    | hole k => simp [holesOf] at h

theorem substT_congr (r1 r2 : List (List Char × List Char)) :
    ∀ (T : List TPiece), (∀ k ∈ holesOf T, getA r1 k = getA r2 k) →
      substT r1 T = substT r2 T := by
  intro T
  induction T with
  | nil => intro _; rfl
  | cons p T' ih =>
    intro h
    cases p with
    | lit s =>
      rw [substT, substT, ih (fun k hk => h k (by rwa [holesOf]))]
    | hole k =>
      rw [substT, substT, h k (by rw [holesOf]; exact List.mem_cons_self _ _),
        ih (fun k' hk' => h k' (by rw [holesOf]; exact List.mem_cons_of_mem _ hk'))]

theorem skip_bf (a b x z pat : List Char) (hhead : ∃ p', pat = '\x7b' :: p')
    (ha : '\x7b' ∉ a) (heq : x ++ pat ++ z = a ++ b) :
    ∃ x', x = a ++ x' ∧ x' ++ pat ++ z = b := by
  rw [List.append_assoc] at heq
  rcases List.append_eq_append_iff.mp heq with ⟨w, hw1, hw2⟩ | ⟨w, hw1, hw2⟩
  · cases w with
    | nil =>
      refine ⟨[], ?_, ?_⟩
      · rw [List.append_nil]
        simpa using hw1.symm
      · simpa using hw2
    | cons ch t =>
      exfalso
      rcases hhead with ⟨p', hp⟩
      rw [hp] at hw2
      have hch : ch = '\x7b' := by
        have h2 := hw2
        simp only [List.cons_append] at h2
        injection h2 with h1 _
        exact h1.symm
      apply ha
      rw [hw1, hch]
      simp
  · refine ⟨w, hw1, ?_⟩
    rw [List.append_assoc]
    exact hw2.symm

theorem key_eq : ∀ (k k' r r' : List Char), '\x7d' ∉ k → '\x7d' ∉ k' →
    k ++ '\x7d' :: r = k' ++ '\x7d' :: r' → k = k' ∧ r = r' := by
  intro k
  induction k with
  | nil =>
    intro k' r r' _ hk' h
    cases k' with
    | nil =>
      simp only [List.nil_append] at h
      injection h with _ h2
      exact ⟨rfl, h2⟩
    | cons c t =>
      simp only [List.nil_append, List.cons_append] at h
      injection h with h1 _
      exfalso
      apply hk'
      rw [← h1]
      exact List.mem_cons_self _ _
  | cons c t ih =>
    intro k' r r' hk hk' h
    cases k' with
    | nil =>
      simp only [List.cons_append, List.nil_append] at h
      injection h with h1 _
      exfalso
      apply hk
      rw [h1]
      exact List.mem_cons_self _ _
    | cons c' t' =>
      simp only [List.cons_append] at h
      injection h with h1 h2
      have hkt : '\x7d' ∉ t := fun hm => hk (List.mem_cons_of_mem c hm)
      have hkt' : '\x7d' ∉ t' := fun hm => hk' (List.mem_cons_of_mem c' hm)
      rcases ih t' r r' hkt hkt' h2 with ⟨he, hr⟩
      exact ⟨by rw [h1, he], hr⟩

theorem tok_append (k w : List Char) :
    tok k ++ w = '\x7b' :: '\x7b' :: (k ++ '\x7d' :: '\x7d' :: w) := by
  simp [tok, List.cons_append, List.append_assoc]

theorem occ_aligns (k : List Char) (_hk1 : '\x7b' ∉ k) (hk2 : '\x7d' ∉ k) :
    ∀ (T : List TPiece), (∀ p ∈ T, pieceOk p = true) →
      ∀ (x z : List Char), renderT T = x ++ tok k ++ z →
      ∃ T1 T2, T = T1 ++ TPiece.hole k :: T2 ∧ x = renderT T1 ∧ z = renderT T2 := by
  intro T
  induction T with
  | nil =>
    intro _ x z h
    exfalso
    rw [renderT] at h
    have hlen := congrArg List.length h
    simp [tok, List.length_append] at hlen
    omega
  | cons p T' ih =>
    intro hok x z h
    have hokT' : ∀ q ∈ T', pieceOk q = true := fun q hq => hok q (List.mem_cons_of_mem p hq)
    cases p with
    | lit s =>
      have hs : '\x7b' ∉ s := by
        have hp := hok (TPiece.lit s) (List.mem_cons_self _ _)
        simpa [pieceOk] using hp
      rw [renderT] at h
      rcases skip_bf s (renderT T') x z (tok k) ⟨_, rfl⟩ hs h.symm with ⟨x', hx1, hx2⟩
      rcases ih hokT' x' z hx2.symm with ⟨T1, T2, hT, hxr, hzr⟩
      refine ⟨TPiece.lit s :: T1, T2, by rw [hT]; rfl, ?_, hzr⟩
      rw [renderT, ← hxr]
      exact hx1
    | hole k' =>
      have hbk' : '\x7b' ∉ k' ∧ '\x7d' ∉ k' := by
        have hp := hok (TPiece.hole k') (List.mem_cons_self _ _)
        simpa [pieceOk] using hp
      rw [renderT] at h
      cases x with
      | nil =>
        rw [List.nil_append] at h
        rw [tok_append, tok_append] at h
        injection h with _ h1
        injection h1 with _ h2
        rcases key_eq k' k ('\x7d' :: renderT T') ('\x7d' :: z) hbk'.2 hk2 h2 with ⟨hkk, hzz⟩
        injection hzz with _ hzz2
        refine ⟨[], T', ?_, rfl, hzz2.symm⟩
        rw [hkk]
        rfl
      | cons c x2 =>
        rw [tok_append] at h
        have h' : '\x7b' :: ('\x7b' :: (k' ++ '\x7d' :: '\x7d' :: renderT T')) =
            c :: ((x2 ++ tok k) ++ z) := by
          simpa only [List.cons_append] using h
        injection h' with hc h1
        cases x2 with
        | nil =>
          exfalso
          rw [List.nil_append] at h1
          rw [tok_append] at h1
          injection h1 with _ h2
          cases k' with
          | nil =>
            simp only [List.nil_append] at h2
            injection h2 with hbad _
            exact absurd hbad (by decide)
          | cons ck tk =>
            simp only [List.cons_append] at h2
            injection h2 with hbad _
            apply hbk'.1
            rw [hbad]
            exact List.mem_cons_self _ _
        | cons c2 x3 =>
          have h1' : '\x7b' :: (k' ++ '\x7d' :: '\x7d' :: renderT T') =
              c2 :: ((x3 ++ tok k) ++ z) := by
            simpa only [List.cons_append] using h1
          injection h1' with hc2 h2
          rcases skip_bf k' ('\x7d' :: '\x7d' :: renderT T') x3 z (tok k)
            ⟨_, rfl⟩ hbk'.1 h2.symm with ⟨x4, hx4, h3⟩
          cases x4 with
          | nil =>
            exfalso
            rw [List.nil_append] at h3
            rw [tok_append] at h3
            injection h3 with hbad _
            exact absurd hbad (by decide)
          | cons c3 x5 =>
            have h3' : c3 :: ((x5 ++ tok k) ++ z) = '\x7d' :: ('\x7d' :: renderT T') := by
              simpa only [List.cons_append] using h3
            injection h3' with hc3 h4
            cases x5 with
            | nil =>
              exfalso
              rw [List.nil_append] at h4
              rw [tok_append] at h4
              injection h4 with hbad _
              exact absurd hbad.symm (by decide)
            | cons c4 x6 =>
              have h4' : c4 :: ((x6 ++ tok k) ++ z) = '\x7d' :: renderT T' := by
                simpa only [List.cons_append] using h4
              injection h4' with hc4 h5
              rcases ih hokT' x6 z h5.symm with ⟨T1, T2, hT, hxr, hzr⟩
              refine ⟨TPiece.hole k' :: T1, T2, by rw [hT]; rfl, ?_, hzr⟩
              rw [renderT, ← hxr]
              rw [hx4, ← hc, ← hc2, hc3, hc4, tok_append]

theorem hole_split (k : List Char) :
    ∀ (T : List TPiece), (holesOf T).Nodup → k ∈ holesOf T →
      ∃ T1 T2, T = T1 ++ TPiece.hole k :: T2 ∧ k ∉ holesOf T1 ∧ k ∉ holesOf T2 := by
  intro T
  induction T with
  | nil => intro _ h; simp [holesOf] at h
  | cons p T' ih =>
    intro hnd h
    cases p with
    | lit s =>
      rw [holesOf] at hnd h
      rcases ih hnd h with ⟨T1, T2, h1, h2, h3⟩
      refine ⟨TPiece.lit s :: T1, T2, by rw [h1]; rfl, ?_, h3⟩
      rw [holesOf]
      exact h2
    | hole k' =>
      rw [holesOf] at hnd h
      rcases List.nodup_cons.mp hnd with ⟨hknot, hndT'⟩
      by_cases hkk : k' = k
      · subst hkk
        exact ⟨[], T', rfl, by simp [holesOf], hknot⟩
      · have hmem' : k ∈ holesOf T' := by
          rcases List.mem_cons.mp h with h | h
          · exact absurd h.symm hkk
          · exact h
        rcases ih hndT' hmem' with ⟨T1, T2, h1, h2, h3⟩
        refine ⟨TPiece.hole k' :: T1, T2, by rw [h1]; rfl, ?_, h3⟩
        rw [holesOf]
        intro hm
        rcases List.mem_cons.mp hm with hm | hm
        · exact hkk hm.symm
        · exact h2 hm

theorem hole_split_unique (k : List Char) (T1 T2 S1 S2 : List TPiece)
    (h2 : k ∉ holesOf T1) (h3 : k ∉ holesOf T2)
    (heq : T1 ++ TPiece.hole k :: T2 = S1 ++ TPiece.hole k :: S2) :
    S1 = T1 ∧ S2 = T2 := by
  rcases List.append_eq_append_iff.mp heq with ⟨w, hw1, hw2⟩ | ⟨w, hw1, hw2⟩
  · cases w with
    | nil =>
      constructor
      · simpa using hw1
      · have h := hw2
        simp at h
        exact h.symm
    | cons q w' =>
      exfalso
      have h := hw2
      simp only [List.cons_append] at h
      injection h with hq hw3
      apply h3
      rw [hw3, holesOf_append, holesOf]
      exact List.mem_append.mpr (Or.inr (List.mem_cons_self _ _))
  · cases w with
    | nil =>
      constructor
      · simpa using hw1.symm
      · have h := hw2
        simp at h
        exact h
    | cons q w' =>
      exfalso
      have h := hw2
      simp only [List.cons_append] at h
      injection h with hq hw3
      apply h2
      rw [hw1, ← hq, holesOf_append, holesOf]
      exact List.mem_append.mpr (Or.inr (List.mem_cons_self _ _))

theorem replace_template_pieces :
    ∀ (repl : List (List Char × List Char)) (T : List TPiece),
      (∀ kv ∈ repl, kvOk kv = true) →
      (repl.map Prod.fst).Nodup →
      (∀ p ∈ T, pieceOk p = true) →
      List.Perm (holesOf T) (repl.map Prod.fst) →
      replace_in_template (renderT T) repl = substT repl T := by
  intro repl
  induction repl with
  | nil =>
    intro T _ _ _ hperm
    have hh : holesOf T = [] := List.perm_nil.mp (by simpa using hperm)
    rw [substT_no_holes [] T hh]
    rfl
  | cons kv rest ih =>
    obtain ⟨k, v⟩ := kv
    intro T hkv hnd hok hperm
    have hkOk := hkv (k, v) (List.mem_cons_self _ _)
    simp only [kvOk, Bool.and_eq_true, Bool.not_eq_true'] at hkOk
    obtain ⟨⟨hbk1', hbk2'⟩, hbv'⟩ := hkOk
    have hbk1 : '\x7b' ∉ k := by simpa using hbk1'
    have hbk2 : '\x7d' ∉ k := by simpa using hbk2'
    have hbv : '\x7b' ∉ v := by simpa using hbv'
    have hnd' : (k :: rest.map Prod.fst).Nodup := by simpa using hnd
    obtain ⟨hknotin, hndrest⟩ := List.nodup_cons.mp hnd'
    have hndT : (holesOf T).Nodup := (hperm.nodup_iff).mpr hnd
    have hmemk : k ∈ holesOf T := hperm.mem_iff.mpr (by simp)
    rcases hole_split k T hndT hmemk with ⟨T1, T2, hT, hkT1, hkT2⟩
    subst hT
    have hT2ok : ∀ p ∈ T2, pieceOk p = true := fun p hp =>
      hok p (List.mem_append.mpr (Or.inr (List.mem_cons_of_mem _ hp)))
    have hr : renderT (T1 ++ TPiece.hole k :: T2) =
        renderT T1 ++ tok k ++ renderT T2 := by
      simp [renderT_append, renderT, List.append_assoc]
    have hstep : replaceAll (tok k) v (renderT (T1 ++ TPiece.hole k :: T2)) =
        renderT T1 ++ v ++ replaceAll (tok k) v (renderT T2) := by
      rw [hr]
      apply replaceAll_split (tok k) v (by simp [tok]) (renderT T1) (renderT T2)
      intro a1 a2 ha hne2 hpre
      rcases (isPrefixOf_spec _ _).mp hpre with ⟨t, ht⟩
      have hfull : renderT (T1 ++ TPiece.hole k :: T2) = a1 ++ tok k ++ t := by
        rw [hr, ha]
        calc (a1 ++ a2) ++ tok k ++ renderT T2
            = a1 ++ (a2 ++ tok k ++ renderT T2) := by simp [List.append_assoc]
          _ = a1 ++ (tok k ++ t) := by rw [ht]
          _ = a1 ++ tok k ++ t := by simp [List.append_assoc]
      rcases occ_aligns k hbk1 hbk2 _ hok a1 t hfull with ⟨S1, S2, hS, ha1, ht2⟩
      rcases hole_split_unique k T1 T2 S1 S2 hkT1 hkT2 hS with ⟨hS1, hS2⟩
      rw [hS1] at ha1
      rw [← ha1] at ha
      have hlen := congrArg List.length ha
      simp only [List.length_append] at hlen
      have hzero : a2.length = 0 := by omega
      exact hne2 (List.eq_nil_of_length_eq_zero hzero)
    have hno : replaceAll (tok k) v (renderT T2) = renderT T2 := by
      apply noOcc_replaceAll (tok k) v (by simp [tok])
      intro x z hxz
      rcases occ_aligns k hbk1 hbk2 T2 hT2ok x z hxz with ⟨S1, S2, hS, _, _⟩
      apply hkT2
      rw [hS, holesOf_append, holesOf]
      exact List.mem_append.mpr (Or.inr (List.mem_cons_self _ _))
    rw [show replace_in_template (renderT (T1 ++ TPiece.hole k :: T2)) ((k, v) :: rest)
        = replace_in_template
            (replaceAll (tok k) v (renderT (T1 ++ TPiece.hole k :: T2))) rest from rfl]
    rw [hstep, hno]
    have hmid : renderT T1 ++ v ++ renderT T2 = renderT (T1 ++ TPiece.lit v :: T2) := by
      simp [renderT_append, renderT, List.append_assoc]
    rw [hmid]
    rw [ih (T1 ++ TPiece.lit v :: T2) ?hkv2 ?hnd2 ?hok2 ?hperm2]
    case hkv2 => exact fun kv' hkv' => hkv kv' (List.mem_cons_of_mem _ hkv')
    case hnd2 => simpa using hndrest
    case hok2 =>
      intro p hp
      rcases List.mem_append.mp hp with hp | hp
      · exact hok p (List.mem_append.mpr (Or.inl hp))
      · rcases List.mem_cons.mp hp with hp | hp
        · subst hp
          simp only [pieceOk, Bool.not_eq_true']
          simpa using hbv
        · exact hok p (List.mem_append.mpr (Or.inr (List.mem_cons_of_mem _ hp)))
    case hperm2 =>
      rw [holesOf_append, holesOf]
      have hp0 : holesOf (T1 ++ TPiece.hole k :: T2) =
          holesOf T1 ++ k :: holesOf T2 := by
        rw [holesOf_append, holesOf]
      rw [hp0] at hperm
      simp only [List.map_cons] at hperm
      have hmidp : List.Perm (holesOf T1 ++ k :: holesOf T2)
          (k :: (holesOf T1 ++ holesOf T2)) := List.perm_middle
      exact List.Perm.cons_inv (hmidp.symm.trans hperm)
    have e1 : substT rest T1 = substT ((k, v) :: rest) T1 := by
      apply substT_congr
      intro k' hk'
      have hne : ¬ (k = k') := fun he => hkT1 (he ▸ hk')
      simp [getA, hne]
    have e2 : substT rest T2 = substT ((k, v) :: rest) T2 := by
      apply substT_congr
      intro k' hk'
      have hne : ¬ (k = k') := fun he => hkT2 (he ▸ hk')
      simp [getA, hne]
    simp only [substT_append, substT]
    rw [← e1, ← e2]
    simp [getA]

/-- Claim C6 (amended): for a template made of literal segments and
placeholder holes in which each replacement key occurs as exactly the
holes (in any order, each once), with brace-free keys, no opening brace
in the literal segments, and no opening brace in the replacement
values, sequential `replace_in_template` equals simultaneous literal
substitution of the values at the token positions — so re-extracting
the substituted positions recovers the replacement values exactly and
no key matches inside a longer key. -/
theorem template_subst_literal (repl : List (List Char × List Char)) (T : List TPiece)
    (hkv : ∀ kv ∈ repl, kvOk kv = true)
    (hnd : (repl.map Prod.fst).Nodup)
    (hok : ∀ p ∈ T, pieceOk p = true)
    (hperm : List.Perm (holesOf T) (repl.map Prod.fst)) :
    replace_in_template (renderT T) repl = substT repl T :=
  replace_template_pieces repl T hkv hnd hok hperm

/-- Claim C6 counterexample: the template holding exactly the tokens of
`A` and `B` once each, with the mapping sending `A` to the literal
token of `B` and `B` to `z`, substitutes to `zz`: the token inside the
value substituted for `A` is expanded by the later replacement, so
substitution is not purely literal and the original value of `A` cannot
be re-extracted. -/
theorem template_subst_counterexample :
    holesOf tmplC6 = [s2l "A", s2l "B"] ∧
    renderT tmplC6 = s2l "\x7b\x7bA\x7d\x7d\x7b\x7bB\x7d\x7d" ∧
    (replC6.map Prod.fst).Nodup ∧
    replace_in_template (renderT tmplC6) replC6 = s2l "zz" ∧
    replace_in_template (renderT tmplC6) replC6 ≠ substT replC6 tmplC6 ∧
    substT replC6 tmplC6 = s2l "\x7b\x7bB\x7d\x7dz" := by
  decide

/-- Witness for the amended claim C6: a two-placeholder template with
plain values substitutes to the simultaneous substitution, recovering
both values verbatim at their positions. -/
theorem template_subst_literal_witness :
    (∀ kv ∈ replC6w, kvOk kv = true) ∧
    (replC6w.map Prod.fst).Nodup ∧
    (∀ p ∈ tmplC6w, pieceOk p = true) ∧
    List.Perm (holesOf tmplC6w) (replC6w.map Prod.fst) ∧
    replace_in_template (renderT tmplC6w) replC6w = substT replC6w tmplC6w ∧
    substT replC6w tmplC6w = s2l "<a id=n1>Brakes</a>" :=
  ⟨by decide, by decide, by decide, by decide,
   template_subst_literal replC6w tmplC6w (by decide) (by decide) (by decide) (by decide),
   by decide⟩
